import Mathlib

set_option maxRecDepth 100000

/-!
Verification of the parallel TTOR validator (src/main.rs).

The program checks that every record of a block references only records
that appear at or before it. It partitions the block into contiguous
bounds, builds a position table (TXID to position) per partition in
parallel, collects the tables, and then validates each partition by
looking the reference of every record up in the tables of its own and
all earlier partitions. The final result is the conjunction of the
per-partition outcomes.

Bytes are modelled as natural numbers, byte buffers as lists. The
SHA-256 primitive comes from the external ring crate and is out of
scope; it is modelled as an explicit function parameter H, so that
txid keeps the digest-of-digest structure of the source.
-/

namespace ParallelTTOR

abbrev Block := List Nat

abbrev RecordID := List Nat

/-- Position table: association list from RecordID to position. A
HashMap is modelled as an association list where a later insert shadows
an earlier binding for the same key. -/
abbrev PTable := List (RecordID × Nat)

/-- Models the slice expression block[a..b] of the source. -/
def slice (buf : Block) (a b : Nat) : List Nat :=
  (buf.drop a).take (b - a)

/-- The all-zero reference value [0u8; 32], meaning no in-block dependency. -/
def sentinel : RecordID := List.replicate 32 0

/-- Embeds fn txid: the double digest of the record stride
block[n*tx_size..(n+1)*tx_size]. The SHA-256 digest itself is the
opaque parameter H. -/
def txid (H : List Nat → List Nat) (n : Nat) (block : Block) (tx_size : Nat) : RecordID :=
  H (H (slice block (n * tx_size) ((n + 1) * tx_size)))

/-- HashMap::insert, as shadowing cons on the association list. -/
def ptInsert (pt : PTable) (k : RecordID) (v : Nat) : PTable :=
  (k, v) :: pt

/-- HashMap::get, as the first (most recently inserted) binding. -/
def ptGet (pt : PTable) (k : RecordID) : Option Nat :=
  (pt.find? (fun e => e.1 == k)).map (fun e => e.2)

/-- Embeds fn setup_bounds: partition t gets the half-open range
[t*N/T, (t+1)*N/T). -/
def setup_bounds (num_threads num_txns : Nat) : List (Nat × Nat) :=
  (List.range num_threads).map
    (fun t => (t * num_txns / num_threads, (t + 1) * num_txns / num_threads))

/-- Convenience accessor for a partition bound. -/
def bound_of (bounds : List (Nat × Nat)) (t : Nat) : Nat × Nat :=
  bounds.getD t (0, 0)

/-- Embeds the loop body of fn spawn_hasher: build the position table of
one partition by inserting (txid n, n) for every n in [low, high). -/
def hasher_ptable (H : List Nat → List Nat) (block : Block) (tx_size low high : Nat) :
    PTable :=
  (List.range (high - low)).foldl
    (fun pt i => ptInsert pt (txid H (low + i) block tx_size) (low + i)) []

/-- Embeds fn collect_ptables: receive (tid, ptable) pairs in arrival
order and store each ptable at slot tid. -/
def collect_ptables (arrivals : List (Nat × PTable)) (num_threads : Nat) : List PTable :=
  arrivals.foldl (fun acc a => acc.set a.1 a.2) (List.replicate num_threads [])

/-- Embeds the inner loop for i in (0..tid+1).rev() of fn
spawn_validator: probe the position tables of partitions i, i-1, ..., 0
and return the first hit. -/
def search_prior (ptables : List PTable) : Nat → RecordID → Option Nat
  | 0, k => ptGet (ptables.getD 0 []) k
  | i + 1, k =>
    match ptGet (ptables.getD (i + 1) []) k with
    | some pos => some pos
    | none => search_prior ptables i k

/-- One position of the validator loop: pass when the reference is the
sentinel, otherwise look it up in partitions tid..0 and require a hit at
a position not after n. -/
def check_pos (ptables : List PTable) (tid : Nat) (block : Block) (tx_size n : Nat) :
    Bool :=
  let tx_input := slice block (n * tx_size) (n * tx_size + 32)
  if tx_input = sentinel then true
  else
    match search_prior ptables tid tx_input with
    | some pos => decide (pos ≤ n)
    | none => false

/-- The validator loop from position n for r more positions, with the
early return of the source on the first failing position. -/
def validate_from (ptables : List PTable) (tid : Nat) (block : Block) (tx_size : Nat) :
    Nat → Nat → Bool
  | _, 0 => true
  | n, r + 1 =>
    if check_pos ptables tid block tx_size n then
      validate_from ptables tid block tx_size (n + 1) r
    else false

/-- Embeds the loop body of fn spawn_validator: validate every position
in [low, high) of partition tid. -/
def validator_outcome (ptables : List PTable) (tid : Nat) (block : Block)
    (tx_size low high : Nat) : Bool :=
  validate_from ptables tid block tx_size low (high - low)

/-- Embeds fn aggregate_results: receive the per-partition outcomes in
arrival order and return false on the first failing one. -/
def aggregate_results : List Bool → Bool
  | [] => true
  | b :: rest => if b then aggregate_results rest else false

/-- The position tables of all partitions in partition-id order. -/
def all_ptables (H : List Nat → List Nat) (block : Block) (tx_size T N : Nat) :
    List PTable :=
  (setup_bounds T N).map (fun b => hasher_ptable H block tx_size b.1 b.2)

/-- Embeds fn main from block generation onwards, with the arrival
orders at the two channels as explicit parameters: hash_order lists the
tids in the order their ptables reach collect_ptables, val_order lists
the tids in the order their outcomes reach aggregate_results. -/
def run_schedule (H : List Nat → List Nat) (block : Block) (tx_size num_threads : Nat)
    (hash_order val_order : List Nat) : Bool :=
  aggregate_results
    (val_order.map (fun t =>
      validator_outcome
        (collect_ptables
          (hash_order.map (fun s =>
            (s, hasher_ptable H block tx_size
              (bound_of (setup_bounds num_threads (block.length / tx_size)) s).1
              (bound_of (setup_bounds num_threads (block.length / tx_size)) s).2)))
          num_threads)
        t block tx_size
        (bound_of (setup_bounds num_threads (block.length / tx_size)) t).1
        (bound_of (setup_bounds num_threads (block.length / tx_size)) t).2))

/-- The pipeline with the canonical arrival order. -/
def run_pipeline (H : List Nat → List Nat) (block : Block) (tx_size num_threads : Nat) :
    Bool :=
  run_schedule H block tx_size num_threads (List.range num_threads) (List.range num_threads)

/-- Pairwise-distinct RecordIDs over the whole block, as assumed of the
digest. -/
@[reducible] def distinctIDs (H : List Nat → List Nat) (block : Block) (tx_size N : Nat) : Prop :=
  ∀ p, p < N → ∀ q, q < N → txid H p block tx_size = txid H q block tx_size → p = q

/-- The block has no ordering and no missing-dependency violation:
every non-sentinel reference is the RecordID of a position at or before
its own. -/
@[reducible] def wellOrdered (H : List Nat → List Nat) (block : Block) (tx_size N : Nat) : Prop :=
  ∀ n, n < N →
    slice block (n * tx_size) (n * tx_size + 32) = sentinel ∨
    ∃ p, p ≤ n ∧ txid H p block tx_size = slice block (n * tx_size) (n * tx_size + 32)

/-! Specification-side definitions, written from the words of the spec
document, to be compared with the source embedding. -/

/-- The search as the spec states it: probe the partitions of the
IndexCollection in the explicit order t, t-1, ..., 0 and return the
first entry found for the key. -/
def spec_search (ptables : List PTable) (t : Nat) (k : RecordID) : Option Nat :=
  ((List.range (t + 1)).reverse).findSome? (fun i => ptGet (ptables.getD i []) k)

/-- The per-position check as the spec states it: a sentinel reference
trivially passes; a found entry at pos with pos > n is an ordering
violation; pos ≤ n satisfies the dependency; a key found nowhere is a
missing-input violation. -/
def spec_check (ptables : List PTable) (t : Nat) (block : Block) (tx_size n : Nat) :
    Bool :=
  let r := slice block (n * tx_size) (n * tx_size + 32)
  if r = sentinel then true
  else
    match spec_search ptables t r with
    | some pos => if pos > n then false else true
    | none => false

/-- The partition scan as the spec states it: consider the positions in
increasing order and stop at the first violation. -/
def spec_scan (ptables : List PTable) (t : Nat) (block : Block) (tx_size : Nat) :
    List Nat → Bool
  | [] => true
  | n :: rest =>
    if spec_check ptables t block tx_size n then spec_scan ptables t block tx_size rest
    else false

/-- The partition outcome as the spec states it: scan all positions of
the bound [low, high) in increasing order. -/
def spec_partition_outcome (ptables : List PTable) (t : Nat) (block : Block)
    (tx_size low high : Nat) : Bool :=
  spec_scan ptables t block tx_size (List.range' low (high - low))

/-- The bounds specification of the Partitioner, collected in one
predicate: count, explicit formulas, contiguity, ordering and
disjointness, coverage of [0, N), and emptiness instead of error when
T exceeds N. -/
def BoundsCorrect (T N : Nat) : Prop :=
  (setup_bounds T N).length = T
  ∧ (∀ t, t < T → bound_of (setup_bounds T N) t = (t * N / T, (t + 1) * N / T))
  ∧ (∀ t, t + 1 < T →
      (bound_of (setup_bounds T N) (t + 1)).1 = (bound_of (setup_bounds T N) t).2)
  ∧ (∀ t s, t < s → s < T →
      (bound_of (setup_bounds T N) t).2 ≤ (bound_of (setup_bounds T N) s).1)
  ∧ (bound_of (setup_bounds T N) 0).1 = 0
  ∧ (∀ t, t < T → (bound_of (setup_bounds T N) t).2 ≤ N)
  ∧ (bound_of (setup_bounds T N) (T - 1)).2 = N
  ∧ (∀ p, p < N → ∃ t, t < T ∧
      (bound_of (setup_bounds T N) t).1 ≤ p ∧ p < (bound_of (setup_bounds T N) t).2)
  ∧ (N < T → ∃ t, t < T ∧
      (bound_of (setup_bounds T N) t).1 = (bound_of (setup_bounds T N) t).2)

/-! Concrete instances used to evaluate the theorems. -/

/-- A concrete stand-in digest for evaluation: 31 zero bytes followed by
the last byte of the input. -/
def hLast (l : List Nat) : List Nat := List.replicate 31 0 ++ [l.getLastD 0]

/-- Four records of 33 bytes each. Records 0, 1 and 2 carry the sentinel
reference; record 3 references record 1: its reference equals
txid hLast 1 blockE 33, a valid cross-partition backward dependency. -/
def blockE : Block :=
  (List.replicate 32 0 ++ [1]) ++ (List.replicate 32 0 ++ [2])
    ++ (List.replicate 32 0 ++ [3]) ++ ((List.replicate 31 0 ++ [2]) ++ [4])

/-- One record of 33 bytes whose reference equals its own RecordID:
the reference and txid hLast 0 blockC5 33 are both 31 zero bytes
followed by the byte 1. -/
def blockC5 : Block := (List.replicate 31 0 ++ [1]) ++ [1]

/-- Two records of 33 bytes; record 0 references record 1, which
appears after it: an ordering violation at position 0 against
position 1. -/
def blockV : Block :=
  ((List.replicate 31 0 ++ [2]) ++ [1]) ++ (List.replicate 32 0 ++ [2])

/-! Helper lemmas: position-table contents. -/

theorem foldl_cons_reverse {α β : Type} (f : α → β) :
    ∀ (l : List α) (init : List β),
      l.foldl (fun acc x => f x :: acc) init = (l.map f).reverse ++ init
  | [], _ => rfl
  | x :: xs, init => by
    simp only [List.foldl_cons, List.map_cons, List.reverse_cons,
      foldl_cons_reverse f xs (f x :: init), List.append_assoc, List.singleton_append]

theorem hasher_ptable_eq (H : List Nat → List Nat) (block : Block) (tx_size low high : Nat) :
    hasher_ptable H block tx_size low high
      = ((List.range (high - low)).map
          (fun i => (txid H (low + i) block tx_size, low + i))).reverse := by
  have h := foldl_cons_reverse
    (fun i => (txid H (low + i) block tx_size, low + i)) (List.range (high - low)) []
  simpa [hasher_ptable, ptInsert] using h

theorem mem_hasher_ptable {H : List Nat → List Nat} {block : Block}
    {tx_size low high : Nat} {k : RecordID} {p : Nat} :
    (k, p) ∈ hasher_ptable H block tx_size low high ↔
      low ≤ p ∧ p < high ∧ k = txid H p block tx_size := by
  rw [hasher_ptable_eq, List.mem_reverse, List.mem_map]
  constructor
  · rintro ⟨i, hi, he⟩
    rw [List.mem_range] at hi
    obtain ⟨hk, hp⟩ := Prod.mk.injEq .. ▸ he
    subst hp
    exact ⟨by omega, by omega, hk.symm⟩
  · rintro ⟨h1, h2, h3⟩
    refine ⟨p - low, ?_, ?_⟩
    · rw [List.mem_range]; omega
    · have : low + (p - low) = p := by omega
      rw [this, h3]

theorem ptGet_eq_none {pt : PTable} {k : RecordID} :
    ptGet pt k = none ↔ ∀ e ∈ pt, e.1 ≠ k := by
  simp [ptGet, List.find?_eq_none]

theorem ptGet_eq_some_mem {pt : PTable} {k : RecordID} {pos : Nat}
    (h : ptGet pt k = some pos) : (k, pos) ∈ pt := by
  unfold ptGet at h
  cases hf : pt.find? (fun e => e.1 == k) with
  | none => rw [hf] at h; simp at h
  | some e =>
    rw [hf] at h
    simp only [Option.map_some', Option.some.injEq] at h
    have hm := List.mem_of_find?_eq_some hf
    have hp : e.1 = k := by simpa using List.find?_some hf
    cases e with
    | mk e1 e2 =>
      simp only at hp h
      rw [hp, h] at hm
      exact hm

theorem ptGet_isSome_of_mem {pt : PTable} {k : RecordID} {p : Nat}
    (h : (k, p) ∈ pt) : (ptGet pt k).isSome := by
  have hs : (pt.find? (fun e => e.1 == k)).isSome :=
    List.find?_isSome.mpr ⟨(k, p), h, by simp⟩
  unfold ptGet
  cases hf : pt.find? (fun e => e.1 == k) with
  | none => rw [hf] at hs; simp at hs
  | some e => simp

theorem hasher_ptGet_none {H : List Nat → List Nat} {block : Block}
    {tx_size low high : Nat} {k : RecordID} :
    ptGet (hasher_ptable H block tx_size low high) k = none ↔
      ∀ p, low ≤ p → p < high → txid H p block tx_size ≠ k := by
  rw [ptGet_eq_none]
  constructor
  · intro h p h1 h2 hk
    exact h (k, p) (mem_hasher_ptable.mpr ⟨h1, h2, hk.symm⟩) rfl
  · rintro h ⟨k2, p⟩ hmem hk
    simp only at hk
    subst hk
    obtain ⟨h1, h2, h3⟩ := mem_hasher_ptable.mp hmem
    exact h p h1 h2 h3.symm

theorem hasher_ptGet_some {H : List Nat → List Nat} {block : Block}
    {tx_size low high : Nat} {k : RecordID} {pos : Nat}
    (h : ptGet (hasher_ptable H block tx_size low high) k = some pos) :
    low ≤ pos ∧ pos < high ∧ txid H pos block tx_size = k := by
  have hm := mem_hasher_ptable.mp (ptGet_eq_some_mem h)
  exact ⟨hm.1, hm.2.1, hm.2.2.symm⟩

theorem hasher_ptGet_some_of {H : List Nat → List Nat} {block : Block}
    {tx_size low high : Nat} {k : RecordID} {p : Nat}
    (h1 : low ≤ p) (h2 : p < high) (hk : txid H p block tx_size = k)
    (huniq : ∀ q, low ≤ q → q < high → txid H q block tx_size = k → q = p) :
    ptGet (hasher_ptable H block tx_size low high) k = some p := by
  have hs : (ptGet (hasher_ptable H block tx_size low high) k).isSome :=
    ptGet_isSome_of_mem (mem_hasher_ptable.mpr ⟨h1, h2, hk.symm⟩)
  cases hg : ptGet (hasher_ptable H block tx_size low high) k with
  | none => rw [hg] at hs; simp at hs
  | some pos =>
    obtain ⟨g1, g2, g3⟩ := hasher_ptGet_some hg
    exact congrArg some (huniq pos g1 g2 g3)

/-! Helper lemmas: partition bounds. -/

theorem setup_bounds_length (T N : Nat) : (setup_bounds T N).length = T := by
  simp [setup_bounds]

theorem bound_of_setup {T N t : Nat} (ht : t < T) :
    bound_of (setup_bounds T N) t = (t * N / T, (t + 1) * N / T) := by
  unfold bound_of setup_bounds
  rw [List.getD_eq_getElem?_getD, List.getElem?_map, List.getElem?_range ht]
  rfl

theorem low_mono {a b N T : Nat} (h : a ≤ b) : a * N / T ≤ b * N / T :=
  Nat.div_le_div_right (Nat.mul_le_mul_right N h)

theorem high_le_total {T N t : Nat} (hT : 0 < T) (ht : t < T) : (t + 1) * N / T ≤ N := by
  have h1 : (t + 1) * N ≤ T * N := Nat.mul_le_mul_right N (by omega)
  have h2 : (t + 1) * N / T ≤ T * N / T := Nat.div_le_div_right h1
  rwa [Nat.mul_div_cancel_left N hT] at h2

theorem bounds_cover {T N p : Nat} (hT : 1 ≤ T) (hp : p < N) :
    ∃ t, t < T ∧ t * N / T ≤ p ∧ p < (t + 1) * N / T := by
  have hN : 0 < N := by omega
  have hT0 : 0 < T := hT
  have hK : 0 < (p + 1) * T := Nat.mul_pos (by omega) hT0
  refine ⟨((p + 1) * T - 1) / N, ?_, ?_, ?_⟩
  · have e1 := Nat.div_add_mod ((p + 1) * T - 1) N
    have e2 := Nat.mod_lt ((p + 1) * T - 1) hN
    have e3 : (p + 1) * T ≤ N * T := Nat.mul_le_mul_right T (by omega)
    have e4 : N * (((p + 1) * T - 1) / N) < N * T := by
      have e5 : N * T = T * N := Nat.mul_comm N T
      omega
    exact Nat.lt_of_mul_lt_mul_left e4
  · have e1 := Nat.div_add_mod ((p + 1) * T - 1) N
    have e5 : (((p + 1) * T - 1) / N) * N < (p + 1) * T := by
      rw [Nat.mul_comm]; omega
    have e7 := (Nat.div_lt_iff_lt_mul hT0).mpr e5
    omega
  · have e1 := Nat.div_add_mod ((p + 1) * T - 1) N
    have e2 := Nat.mod_lt ((p + 1) * T - 1) hN
    have e6 : (p + 1) * T ≤ (((p + 1) * T - 1) / N + 1) * N := by
      rw [Nat.add_mul (((p + 1) * T - 1) / N) 1 N, Nat.one_mul,
        Nat.mul_comm (((p + 1) * T - 1) / N) N]
      omega
    have e8 := (Nat.le_div_iff_mul_le hT0).mpr e6
    omega

theorem empty_bound_of_small {T N : Nat} (h : N < T) : (0 + 1) * N / T = 0 := by
  rw [Nat.one_mul]
  exact Nat.div_eq_of_lt h

/-! Helper lemmas: the backward search over partition tables. -/

theorem search_prior_eq_none (pts : List PTable) (k : RecordID) :
    ∀ i, (search_prior pts i k = none ↔ ∀ j, j ≤ i → ptGet (pts.getD j []) k = none) := by
  intro i
  induction i with
  | zero =>
    simp only [search_prior]
    constructor
    · intro h j hj
      have : j = 0 := Nat.le_zero.mp hj
      rw [this]; exact h
    · intro h; exact h 0 (Nat.le_refl 0)
  | succ i ih =>
    simp only [search_prior]
    cases hg : ptGet (pts.getD (i + 1) []) k with
    | some pos =>
      simp only []
      constructor
      · intro h; exact absurd h (by simp)
      · intro h
        have h2 := h (i + 1) (Nat.le_refl _)
        rw [h2] at hg
        exact absurd hg (by simp)
    | none =>
      simp only [ih]
      constructor
      · intro h j hj
        rcases Nat.lt_or_ge j (i + 1) with hlt | hge
        · exact h j (by omega)
        · have : j = i + 1 := by omega
          rw [this]; exact hg
      · intro h j hj
        exact h j (by omega)

theorem search_prior_some_ex {pts : List PTable} {k : RecordID} {pos : Nat} :
    ∀ i, search_prior pts i k = some pos →
      ∃ j, j ≤ i ∧ ptGet (pts.getD j []) k = some pos := by
  intro i
  induction i with
  | zero =>
    intro h
    exact ⟨0, Nat.le_refl 0, h⟩
  | succ i ih =>
    intro h
    rw [search_prior] at h
    cases hg : ptGet (pts.getD (i + 1) []) k with
    | some pos2 =>
      rw [hg] at h
      simp only [Option.some.injEq] at h
      exact ⟨i + 1, Nat.le_refl _, by rw [hg, h]⟩
    | none =>
      rw [hg] at h
      obtain ⟨j, hj, hget⟩ := ih h
      exact ⟨j, by omega, hget⟩

theorem search_prior_eq_some_of {pts : List PTable} {k : RecordID} {pos : Nat} {j : Nat} :
    ∀ i, j ≤ i → ptGet (pts.getD j []) k = some pos →
      (∀ j2, j2 ≤ i → j2 ≠ j → ptGet (pts.getD j2 []) k = none) →
      search_prior pts i k = some pos := by
  intro i
  induction i with
  | zero =>
    intro hj hget _
    have : j = 0 := Nat.le_zero.mp hj
    rw [this] at hget
    simpa [search_prior] using hget
  | succ i ih =>
    intro hj hget huniq
    rw [search_prior]
    rcases Nat.lt_or_ge j (i + 1) with hlt | hge
    · have hnone : ptGet (pts.getD (i + 1) []) k = none :=
        huniq (i + 1) (Nat.le_refl _) (by omega)
      rw [hnone]
      exact ih (by omega) hget (fun j2 h2 hne => huniq j2 (by omega) hne)
    · have : j = i + 1 := by omega
      rw [this] at hget
      rw [hget]

/-! Helper lemmas: the tables of all partitions. -/

theorem all_ptables_getD {H : List Nat → List Nat} {block : Block}
    {tx_size T N t : Nat} (ht : t < T) :
    (all_ptables H block tx_size T N).getD t []
      = hasher_ptable H block tx_size (t * N / T) ((t + 1) * N / T) := by
  unfold all_ptables setup_bounds
  rw [List.map_map, List.getD_eq_getElem?_getD, List.getElem?_map, List.getElem?_range ht]
  rfl

theorem search_prior_finds {H : List Nat → List Nat} {block : Block}
    {tx_size T N t p j : Nat}
    (hdist : distinctIDs H block tx_size N)
    (hT : 1 ≤ T) (ht : t < T) (hj : j ≤ t)
    (hp1 : j * N / T ≤ p) (hp2 : p < (j + 1) * N / T) :
    search_prior (all_ptables H block tx_size T N) t (txid H p block tx_size) = some p := by
  have hjT : j < T := Nat.lt_of_le_of_lt hj ht
  have hpN : p < N := Nat.lt_of_lt_of_le hp2 (high_le_total hT hjT)
  apply search_prior_eq_some_of t hj
  · rw [all_ptables_getD hjT]
    apply hasher_ptGet_some_of hp1 hp2 rfl
    intro q h1 h2 hq
    have hqN : q < N := Nat.lt_of_lt_of_le h2 (high_le_total hT hjT)
    exact hdist q hqN p hpN hq
  · intro j2 hj2 hne
    have hj2T : j2 < T := Nat.lt_of_le_of_lt hj2 ht
    rw [all_ptables_getD hj2T, hasher_ptGet_none]
    intro q h1 h2 hq
    have hqN : q < N := Nat.lt_of_lt_of_le h2 (high_le_total hT hj2T)
    have hqp : q = p := hdist q hqN p hpN hq
    subst hqp
    rcases Nat.lt_or_ge j2 j with hlt | hge
    · have hmono : (j2 + 1) * N / T ≤ j * N / T := low_mono (by omega)
      omega
    · have hlt2 : j < j2 := by omega
      have hmono : (j + 1) * N / T ≤ j2 * N / T := low_mono (by omega)
      omega

theorem search_prior_none_of_absent {H : List Nat → List Nat} {block : Block}
    {tx_size T N t : Nat} {k : RecordID}
    (hT : 1 ≤ T) (ht : t < T)
    (habs : ∀ p, p < N → txid H p block tx_size ≠ k) :
    search_prior (all_ptables H block tx_size T N) t k = none := by
  rw [search_prior_eq_none]
  intro j hj
  have hjT : j < T := Nat.lt_of_le_of_lt hj ht
  rw [all_ptables_getD hjT, hasher_ptGet_none]
  intro q h1 h2
  exact habs q (Nat.lt_of_lt_of_le h2 (high_le_total hT hjT))

theorem search_prior_none_of_later {H : List Nat → List Nat} {block : Block}
    {tx_size T N t p j : Nat}
    (hdist : distinctIDs H block tx_size N)
    (hT : 1 ≤ T) (ht : t < T) (hjT : j < T) (htj : t < j)
    (hp1 : j * N / T ≤ p) (hp2 : p < (j + 1) * N / T) :
    search_prior (all_ptables H block tx_size T N) t (txid H p block tx_size) = none := by
  have hpN : p < N := Nat.lt_of_lt_of_le hp2 (high_le_total hT hjT)
  rw [search_prior_eq_none]
  intro j2 hj2
  have hj2T : j2 < T := Nat.lt_of_le_of_lt hj2 ht
  rw [all_ptables_getD hj2T, hasher_ptGet_none]
  intro q h1 h2 hq
  have hqN : q < N := Nat.lt_of_lt_of_le h2 (high_le_total hT hj2T)
  have hqp : q = p := hdist q hqN p hpN hq
  subst hqp
  have hmono : (j2 + 1) * N / T ≤ j * N / T := low_mono (by omega)
  omega

/-! Helper lemmas: the validator loop and the aggregator. -/

theorem validate_from_eq_true_iff (ptables : List PTable) (tid : Nat) (block : Block)
    (tx_size : Nat) :
    ∀ r lo, (validate_from ptables tid block tx_size lo r = true ↔
      ∀ n, lo ≤ n → n < lo + r → check_pos ptables tid block tx_size n = true) := by
  intro r
  induction r with
  | zero =>
    intro lo
    constructor
    · intro _ n h1 h2; omega
    · intro _; rfl
  | succ r ih =>
    intro lo
    rw [validate_from]
    by_cases h : check_pos ptables tid block tx_size lo = true
    · rw [if_pos h, ih (lo + 1)]
      constructor
      · intro hall n h1 h2
        rcases Nat.eq_or_lt_of_le h1 with heq | hlt
        · rw [← heq]; exact h
        · exact hall n hlt (by omega)
      · intro hall n h1 h2
        exact hall n (by omega) (by omega)
    · rw [if_neg h]
      constructor
      · intro hfalse; exact absurd hfalse (by simp)
      · intro hall
        exact absurd (hall lo (Nat.le_refl lo) (by omega)) h

theorem validator_outcome_eq_true_iff (ptables : List PTable) (tid : Nat) (block : Block)
    (tx_size low high : Nat) (hlh : low ≤ high) :
    validator_outcome ptables tid block tx_size low high = true ↔
      ∀ n, low ≤ n → n < high → check_pos ptables tid block tx_size n = true := by
  unfold validator_outcome
  rw [validate_from_eq_true_iff]
  constructor
  · intro h n h1 h2; exact h n h1 (by omega)
  · intro h n h1 h2; exact h n h1 (by omega)

theorem check_pos_unfold (ptables : List PTable) (tid : Nat) (block : Block)
    (tx_size n : Nat) :
    check_pos ptables tid block tx_size n
      = if slice block (n * tx_size) (n * tx_size + 32) = sentinel then true
        else
          match search_prior ptables tid (slice block (n * tx_size) (n * tx_size + 32)) with
          | some pos => decide (pos ≤ n)
          | none => false := rfl

theorem aggregate_results_eq_all (rs : List Bool) : aggregate_results rs = rs.all id := by
  induction rs with
  | nil => rfl
  | cons b rest ih => cases b <;> simp [aggregate_results, ih]

theorem perm_all {α : Type} {l1 l2 : List α} (h : l1.Perm l2) (f : α → Bool) :
    l1.all f = l2.all f := by
  induction h with
  | nil => rfl
  | cons x _ ih => simp [List.all_cons, ih]
  | swap x y l => simp [List.all_cons, ← Bool.and_assoc, Bool.and_comm (f y) (f x)]
  | trans _ _ ih1 ih2 => rw [ih1, ih2]

/-! Helper lemmas: collecting the tables, in any arrival order. -/

theorem getD_set_ne {α : Type} (l : List α) (i j : Nat) (x d : α) (h : i ≠ j) :
    (l.set i x).getD j d = l.getD j d := by
  rw [List.getD_eq_getElem?_getD, List.getD_eq_getElem?_getD, List.getElem?_set_ne h]

theorem getD_set_self {α : Type} (l : List α) (i : Nat) (x d : α) (h : i < l.length) :
    (l.set i x).getD i d = x := by
  rw [List.getD_eq_getElem?_getD, List.getElem?_set_self h]
  rfl

theorem getElem_eq_getD {α : Type} (l : List α) (i : Nat) (d : α) (h : i < l.length) :
    l[i] = l.getD i d := by
  rw [List.getD_eq_getElem?_getD, List.getElem?_eq_getElem h]
  rfl

theorem length_foldl_set (l : List (Nat × PTable)) :
    ∀ acc : List PTable, (l.foldl (fun a p => a.set p.1 p.2) acc).length = acc.length := by
  induction l with
  | nil => intro acc; rfl
  | cons hd tl ih =>
    intro acc
    rw [List.foldl_cons, ih]
    exact List.length_set acc hd.1 hd.2

theorem foldl_set_getD_not_mem (l : List (Nat × PTable)) (i : Nat) :
    ∀ acc : List PTable, (∀ e ∈ l, e.1 ≠ i) →
      (l.foldl (fun a p => a.set p.1 p.2) acc).getD i [] = acc.getD i [] := by
  induction l with
  | nil => intro acc _; rfl
  | cons hd tl ih =>
    intro acc h
    rw [List.foldl_cons, ih _ (fun e he => h e (List.mem_cons_of_mem hd he))]
    exact getD_set_ne acc hd.1 i hd.2 [] (h hd (List.mem_cons_self hd tl))

theorem collect_foldl_getD (f : Nat → PTable) (i : Nat) :
    ∀ (ids : List Nat) (acc : List PTable), ids.Nodup → i ∈ ids → i < acc.length →
      ((ids.map (fun t => (t, f t))).foldl (fun a p => a.set p.1 p.2) acc).getD i []
        = f i := by
  intro ids
  induction ids with
  | nil => intro acc _ h _; exact absurd h (List.not_mem_nil i)
  | cons a rest ih =>
    intro acc hnodup hmem hlen
    rw [List.map_cons, List.foldl_cons]
    by_cases hai : a = i
    · subst hai
      have hnotin : a ∉ rest := (List.nodup_cons.mp hnodup).1
      have hcond : ∀ e ∈ rest.map (fun t => (t, f t)), e.1 ≠ a := by
        intro e he
        obtain ⟨t, ht, rfl⟩ := List.mem_map.mp he
        intro hcontra
        have hc2 : t = a := hcontra
        rw [hc2] at ht
        exact hnotin ht
      rw [foldl_set_getD_not_mem (rest.map (fun t => (t, f t))) a (acc.set a (f a)) hcond]
      exact getD_set_self acc a (f a) [] hlen
    · have hmem2 : i ∈ rest := by
        cases List.mem_cons.mp hmem with
        | inl h => exact absurd h.symm hai
        | inr h => exact h
      exact ih (acc.set a (f a)) (List.nodup_cons.mp hnodup).2 hmem2
        (by rw [List.length_set]; exact hlen)

theorem collect_ptables_length (l : List (Nat × PTable)) (T : Nat) :
    (collect_ptables l T).length = T := by
  unfold collect_ptables
  rw [length_foldl_set, List.length_replicate]

theorem collect_ptables_canonical (T : Nat) (f : Nat → PTable) (ids : List Nat)
    (h : ids.Perm (List.range T)) :
    collect_ptables (ids.map (fun t => (t, f t))) T = (List.range T).map f := by
  have hnodup : ids.Nodup := h.nodup_iff.mpr (List.nodup_range T)
  apply List.ext_getElem
  · rw [collect_ptables_length, List.length_map, List.length_range]
  · intro i h1 h2
    have hiT : i < T := by
      rw [collect_ptables_length] at h1; exact h1
    have hmem : i ∈ ids := h.mem_iff.mpr (List.mem_range.mpr hiT)
    rw [getElem_eq_getD _ _ [] h1, getElem_eq_getD _ _ [] h2]
    unfold collect_ptables
    rw [collect_foldl_getD f i ids (List.replicate T []) hnodup hmem
      (by rw [List.length_replicate]; exact hiT)]
    rw [List.getD_eq_getElem?_getD, List.getElem?_map, List.getElem?_range hiT]
    rfl

theorem all_ptables_eq_range_map (H : List Nat → List Nat) (block : Block)
    (tx_size T N : Nat) :
    all_ptables H block tx_size T N
      = (List.range T).map (fun t =>
          hasher_ptable H block tx_size (bound_of (setup_bounds T N) t).1
            (bound_of (setup_bounds T N) t).2) := by
  have h1 : all_ptables H block tx_size T N
      = (List.range T).map (fun t =>
          hasher_ptable H block tx_size (t * N / T) ((t + 1) * N / T)) := by
    unfold all_ptables setup_bounds
    rw [List.map_map]
    rfl
  rw [h1]
  apply List.map_congr_left
  intro t ht
  rw [List.mem_range] at ht
  rw [bound_of_setup ht]

theorem run_schedule_eq (H : List Nat → List Nat) (block : Block) (tx_size T : Nat)
    (hash_order val_order : List Nat)
    (hho : hash_order.Perm (List.range T)) :
    run_schedule H block tx_size T hash_order val_order
      = aggregate_results (val_order.map (fun t =>
          validator_outcome (all_ptables H block tx_size T (block.length / tx_size))
            t block tx_size
            (bound_of (setup_bounds T (block.length / tx_size)) t).1
            (bound_of (setup_bounds T (block.length / tx_size)) t).2)) := by
  unfold run_schedule
  rw [collect_ptables_canonical T _ hash_order hho, ← all_ptables_eq_range_map]

theorem spec_search_eq (ptables : List PTable) (k : RecordID) :
    ∀ t, spec_search ptables t k = search_prior ptables t k := by
  intro t
  induction t with
  | zero =>
    show (List.range 1).reverse.findSome? (fun i => ptGet (ptables.getD i []) k)
      = search_prior ptables 0 k
    rw [List.range_succ, List.range_zero, List.nil_append, List.reverse_singleton]
    rw [List.findSome?_cons]
    rw [show search_prior ptables 0 k = ptGet (ptables.getD 0 []) k from rfl]
    cases ptGet (ptables.getD 0 []) k with
    | none => rfl
    | some pos => rfl
  | succ t ih =>
    show (List.range (t + 2)).reverse.findSome? (fun i => ptGet (ptables.getD i []) k)
      = search_prior ptables (t + 1) k
    rw [List.range_succ, List.reverse_append, List.reverse_singleton,
      List.singleton_append, List.findSome?_cons]
    rw [search_prior]
    cases ptGet (ptables.getD (t + 1) []) k with
    | none => exact ih
    | some pos => rfl

theorem spec_check_eq (ptables : List PTable) (t : Nat) (block : Block)
    (tx_size n : Nat) :
    spec_check ptables t block tx_size n = check_pos ptables t block tx_size n := by
  show (if slice block (n * tx_size) (n * tx_size + 32) = sentinel then true
      else
        match spec_search ptables t (slice block (n * tx_size) (n * tx_size + 32)) with
        | some pos => if pos > n then false else true
        | none => false)
    = (if slice block (n * tx_size) (n * tx_size + 32) = sentinel then true
      else
        match search_prior ptables t (slice block (n * tx_size) (n * tx_size + 32)) with
        | some pos => decide (pos ≤ n)
        | none => false)
  rw [spec_search_eq]
  by_cases hs : slice block (n * tx_size) (n * tx_size + 32) = sentinel
  · rw [if_pos hs, if_pos hs]
  · rw [if_neg hs, if_neg hs]
    cases search_prior ptables t (slice block (n * tx_size) (n * tx_size + 32)) with
    | none => rfl
    | some pos =>
      show (if pos > n then false else true) = decide (pos ≤ n)
      by_cases h : pos ≤ n
      · rw [if_neg (by omega : ¬ pos > n), decide_eq_true h]
      · rw [if_pos (by omega : pos > n), decide_eq_false h]

theorem spec_scan_eq (ptables : List PTable) (t : Nat) (block : Block) (tx_size : Nat) :
    ∀ r lo, spec_scan ptables t block tx_size (List.range' lo r)
      = validate_from ptables t block tx_size lo r := by
  intro r
  induction r with
  | zero => intro lo; rfl
  | succ r ih =>
    intro lo
    rw [List.range'_succ, spec_scan, validate_from, spec_check_eq, ih (lo + 1)]

/-! The claims. -/

/-- Claim C2: the validator's per-position check behaves exactly as
specified: a sentinel reference passes without consulting any index;
otherwise partitions t, t-1, ..., 0 are searched, a hit at pos > n
makes the partition's outcome false and stops the scan, a hit at
pos ≤ n passes the position, a miss in every reachable partition makes
the outcome false, and the outcome is true iff all positions pass. -/
theorem validator_matches_spec (ptables : List PTable) (t : Nat) (block : Block)
    (tx_size low high : Nat) :
    validator_outcome ptables t block tx_size low high
      = spec_partition_outcome ptables t block tx_size low high := by
  unfold validator_outcome spec_partition_outcome
  rw [spec_scan_eq]

/-- Claim C3: the Partitioner produces exactly T bounds with integer
division formulas low = t*N/T and high = (t+1)*N/T; the bounds are
contiguous, pairwise disjoint, ordered ascending by partition id, their
union is exactly the interval from 0 to N, and when T > N some bounds
are empty ranges rather than errors. -/
theorem setup_bounds_correct (T N : Nat) (hT : 1 ≤ T) : BoundsCorrect T N := by
  have hT0 : 0 < T := hT
  refine ⟨setup_bounds_length T N, ?_, ?_, ?_, ?_, ?_, ?_, ?_, ?_⟩
  · intro t ht; exact bound_of_setup ht
  · intro t ht
    rw [bound_of_setup ht, bound_of_setup (by omega : t < T)]
  · intro t s hts hsT
    rw [bound_of_setup (by omega : t < T), bound_of_setup hsT]
    exact low_mono (by omega)
  · rw [bound_of_setup hT0]
    show 0 * N / T = 0
    rw [Nat.zero_mul, Nat.zero_div]
  · intro t ht
    rw [bound_of_setup ht]
    exact high_le_total hT0 ht
  · rw [bound_of_setup (by omega : T - 1 < T)]
    show (T - 1 + 1) * N / T = N
    rw [show T - 1 + 1 = T from by omega]
    exact Nat.mul_div_cancel_left N hT0
  · intro p hp
    obtain ⟨t, h1, h2, h3⟩ := bounds_cover hT hp
    refine ⟨t, h1, ?_, ?_⟩ <;> rw [bound_of_setup h1]
    · exact h2
    · exact h3
  · intro hNT
    refine ⟨0, hT0, ?_⟩
    rw [bound_of_setup hT0]
    show 0 * N / T = (0 + 1) * N / T
    rw [empty_bound_of_small hNT, Nat.zero_mul, Nat.zero_div]

theorem setup_bounds_correct_witness : 1 ≤ 3 ∧ BoundsCorrect 3 7 :=
  ⟨by decide, setup_bounds_correct 3 7 (by decide)⟩

/-- Claim C6: the aggregator's output is the logical AND of all
outcomes, for every arrival order; a false outcome at the head of the
arrival sequence yields false without consuming the rest, and the
result is true iff every outcome is true. -/
theorem aggregate_results_correct :
    (∀ rs : List Bool, aggregate_results rs = rs.all id)
    ∧ (∀ rs1 rs2 : List Bool, rs1.Perm rs2 →
        aggregate_results rs1 = aggregate_results rs2)
    ∧ (∀ rest : List Bool, aggregate_results (false :: rest) = false)
    ∧ (∀ rs : List Bool, aggregate_results rs = true ↔ ∀ b ∈ rs, b = true) := by
  refine ⟨aggregate_results_eq_all, ?_, ?_, ?_⟩
  · intro rs1 rs2 h
    rw [aggregate_results_eq_all, aggregate_results_eq_all]
    exact perm_all h id
  · intro rest; rfl
  · intro rs
    rw [aggregate_results_eq_all, List.all_eq_true]
    constructor
    · intro h b hb; exact h b hb
    · intro h b hb; exact h b hb

theorem aggregate_results_correct_witness :
    [true, false].Perm [false, true]
    ∧ aggregate_results [true, false] = aggregate_results [false, true] :=
  ⟨by decide, aggregate_results_correct.2.1 [true, false] [false, true] (by decide)⟩

/-- Claim C8: collecting exactly the pairs (t, f t) for the partition
ids 0..T-1 in any arrival order produces the same IndexCollection, with
slot i holding the table built for partition i, for every permutation
of the arrivals. -/
theorem collect_order_irrelevant (T : Nat) (f : Nat → PTable) (ids1 ids2 : List Nat)
    (h1 : ids1.Perm (List.range T)) (h2 : ids2.Perm (List.range T)) :
    collect_ptables (ids1.map (fun t => (t, f t))) T
      = collect_ptables (ids2.map (fun t => (t, f t))) T
    ∧ ∀ i, i < T →
        (collect_ptables (ids1.map (fun t => (t, f t))) T).getD i [] = f i := by
  constructor
  · rw [collect_ptables_canonical T f ids1 h1, collect_ptables_canonical T f ids2 h2]
  · intro i hi
    rw [collect_ptables_canonical T f ids1 h1]
    rw [List.getD_eq_getElem?_getD, List.getElem?_map, List.getElem?_range hi]
    rfl

theorem collect_order_irrelevant_witness :
    [2, 0, 1].Perm (List.range 3)
    ∧ (collect_ptables ([2, 0, 1].map (fun t => (t, [(sentinel, t)]))) 3
        = collect_ptables ([1, 2, 0].map (fun t => (t, [(sentinel, t)]))) 3
      ∧ ∀ i, i < 3 →
          (collect_ptables ([2, 0, 1].map (fun t => (t, [(sentinel, t)]))) 3).getD i []
            = [(sentinel, i)]) :=
  ⟨by decide, collect_order_irrelevant 3 (fun t => [(sentinel, t)]) [2, 0, 1] [1, 2, 0]
    (by decide) (by decide)⟩

/-- Claim C9: re-running the build and validation phases on the same
block, bounds and worker count yields the same boolean: the result is a
deterministic function of the buffer, the record size and T, whatever
the arrival orders at the two channels are in either run. -/
theorem run_deterministic (H : List Nat → List Nat) (block : Block) (tx_size T : Nat)
    (o1 v1 o2 v2 : List Nat)
    (ho1 : o1.Perm (List.range T)) (hv1 : v1.Perm (List.range T))
    (ho2 : o2.Perm (List.range T)) (hv2 : v2.Perm (List.range T)) :
    run_schedule H block tx_size T o1 v1 = run_schedule H block tx_size T o2 v2 := by
  rw [run_schedule_eq H block tx_size T o1 v1 ho1,
    run_schedule_eq H block tx_size T o2 v2 ho2,
    aggregate_results_eq_all, aggregate_results_eq_all]
  exact perm_all (List.Perm.map _ (hv1.trans hv2.symm)) id

theorem run_deterministic_witness :
    [1, 0].Perm (List.range 2)
    ∧ run_schedule hLast blockE 33 2 [1, 0] [1, 0]
        = run_schedule hLast blockE 33 2 [0, 1] [0, 1] :=
  ⟨by decide,
    run_deterministic hLast blockE 33 2 [1, 0] [1, 0] [0, 1] [0, 1]
      (by decide) (by decide) (by decide) (by decide)⟩

/-- Claim C10: under the caller precondition tx_size ≥ 32 and buffer
length N*tx_size, the validator's 32-byte reference slice and the
digest's full-stride slice stay inside the buffer for every position of
every bound, so the out-of-range branch is unreachable; with
tx_size < 32 the 32-byte reference slice of the last record extends
past the record's stride and past the buffer. -/
theorem slice_access_in_bounds (block : Block) (N tx_size T : Nat)
    (hlen : block.length = N * tx_size) :
    (32 ≤ tx_size → ∀ t, t < T → ∀ n,
        (bound_of (setup_bounds T N) t).1 ≤ n → n < (bound_of (setup_bounds T N) t).2 →
        n * tx_size + 32 ≤ block.length
        ∧ (slice block (n * tx_size) (n * tx_size + 32)).length = 32
        ∧ (n + 1) * tx_size ≤ block.length
        ∧ (slice block (n * tx_size) ((n + 1) * tx_size)).length = tx_size)
    ∧ (tx_size < 32 → 1 ≤ N → N * tx_size < (N - 1) * tx_size + 32) := by
  constructor
  · intro hsz t ht n hn1 hn2
    have hT0 : 0 < T := by omega
    rw [bound_of_setup ht] at hn1 hn2
    have hn1a : t * N / T ≤ n := hn1
    have hn2a : n < (t + 1) * N / T := hn2
    have hnN : n < N := Nat.lt_of_lt_of_le hn2a (high_le_total hT0 ht)
    have hmul : (n + 1) * tx_size ≤ N * tx_size := Nat.mul_le_mul_right tx_size (by omega)
    have hsucc : (n + 1) * tx_size = n * tx_size + tx_size := Nat.succ_mul n tx_size
    refine ⟨by omega, ?_, by omega, ?_⟩
    · unfold slice
      rw [List.length_take, List.length_drop]
      omega
    · unfold slice
      rw [List.length_take, List.length_drop]
      omega
  · intro hsz hN
    obtain ⟨m, rfl⟩ : ∃ m, N = m + 1 := ⟨N - 1, by omega⟩
    rw [Nat.add_sub_cancel, Nat.succ_mul]
    omega

theorem slice_access_in_bounds_witness :
    blockE.length = 4 * 33
    ∧ ((32 ≤ 33 → ∀ t, t < 2 → ∀ n,
        (bound_of (setup_bounds 2 4) t).1 ≤ n → n < (bound_of (setup_bounds 2 4) t).2 →
        n * 33 + 32 ≤ blockE.length
        ∧ (slice blockE (n * 33) (n * 33 + 32)).length = 32
        ∧ (n + 1) * 33 ≤ blockE.length
        ∧ (slice blockE (n * 33) ((n + 1) * 33)).length = 33)
      ∧ (33 < 32 → 1 ≤ 4 → 4 * 33 < (4 - 1) * 33 + 32)) :=
  ⟨by decide, slice_access_in_bounds blockE 4 33 2 (by decide)⟩

/-- Claim C1: for a block of length N*tx_size with tx_size ≥ 32 and
pairwise-distinct RecordIDs, the per-record verdict of the search
restricted to partitions t, t-1, ..., 0 equals the verdict of a search
over all T partition indexes, for every position n of partition t;
moreover any position pos ≤ n (in particular one whose txid equals the
record's reference) lies in a partition with id ≤ t. -/
theorem restricted_search_equiv (H : List Nat → List Nat) (block : Block)
    (N tx_size T t n : Nat)
    (hlen : block.length = N * tx_size) (hsz : 32 ≤ tx_size)
    (hdist : distinctIDs H block tx_size N)
    (ht : t < T)
    (hn1 : (bound_of (setup_bounds T N) t).1 ≤ n)
    (hn2 : n < (bound_of (setup_bounds T N) t).2) :
    check_pos (all_ptables H block tx_size T N) t block tx_size n
      = check_pos (all_ptables H block tx_size T N) (T - 1) block tx_size n
    ∧ ∀ pos, pos ≤ n → pos < N →
        ∃ j, j ≤ t ∧ j * N / T ≤ pos ∧ pos < (j + 1) * N / T := by
  have hT : 1 ≤ T := by omega
  rw [bound_of_setup ht] at hn1 hn2
  have hn1a : t * N / T ≤ n := hn1
  have hn2a : n < (t + 1) * N / T := hn2
  have hcov : ∀ pos, pos ≤ n → pos < N →
      ∃ j, j ≤ t ∧ j * N / T ≤ pos ∧ pos < (j + 1) * N / T := by
    intro pos hpn hpN
    obtain ⟨j, hjT, hj1, hj2⟩ := bounds_cover hT hpN
    refine ⟨j, ?_, hj1, hj2⟩
    by_contra hc
    have hmono : (t + 1) * N / T ≤ j * N / T := low_mono (by omega)
    omega
  refine ⟨?_, hcov⟩
  rw [check_pos_unfold, check_pos_unfold]
  by_cases hs : slice block (n * tx_size) (n * tx_size + 32) = sentinel
  · rw [if_pos hs, if_pos hs]
  · rw [if_neg hs, if_neg hs]
    by_cases hex : ∃ p, p < N ∧
        txid H p block tx_size = slice block (n * tx_size) (n * tx_size + 32)
    · obtain ⟨p, hpN, hptx⟩ := hex
      obtain ⟨j, hjT, hj1, hj2⟩ := bounds_cover hT hpN
      by_cases hjt : j ≤ t
      · have h1 : search_prior (all_ptables H block tx_size T N) t
            (slice block (n * tx_size) (n * tx_size + 32)) = some p := by
          rw [← hptx]
          exact search_prior_finds hdist hT ht hjt hj1 hj2
        have h2 : search_prior (all_ptables H block tx_size T N) (T - 1)
            (slice block (n * tx_size) (n * tx_size + 32)) = some p := by
          rw [← hptx]
          exact search_prior_finds hdist hT (by omega) (by omega) hj1 hj2
        rw [h1, h2]
      · have htj : t < j := by omega
        have h1 : search_prior (all_ptables H block tx_size T N) t
            (slice block (n * tx_size) (n * tx_size + 32)) = none := by
          rw [← hptx]
          exact search_prior_none_of_later hdist hT ht hjT htj hj1 hj2
        have h2 : search_prior (all_ptables H block tx_size T N) (T - 1)
            (slice block (n * tx_size) (n * tx_size + 32)) = some p := by
          rw [← hptx]
          exact search_prior_finds hdist hT (by omega) (by omega) hj1 hj2
        rw [h1, h2]
        show false = decide (p ≤ n)
        have hmono : (t + 1) * N / T ≤ j * N / T := low_mono (by omega)
        have hpn : ¬ (p ≤ n) := by omega
        rw [decide_eq_false hpn]
    · have habs : ∀ p, p < N →
          txid H p block tx_size ≠ slice block (n * tx_size) (n * tx_size + 32) := by
        intro p hpN hcontra
        exact hex ⟨p, hpN, hcontra⟩
      rw [search_prior_none_of_absent hT ht habs,
        search_prior_none_of_absent hT (by omega : T - 1 < T) habs]

theorem restricted_search_equiv_witness :
    blockE.length = 4 * 33 ∧ distinctIDs hLast blockE 33 4
    ∧ (check_pos (all_ptables hLast blockE 33 4 4) 1 blockE 33 1
        = check_pos (all_ptables hLast blockE 33 4 4) 3 blockE 33 1
      ∧ ∀ pos, pos ≤ 1 → pos < 4 →
          ∃ j, j ≤ 1 ∧ j * 4 / 4 ≤ pos ∧ pos < (j + 1) * 4 / 4) :=
  ⟨by decide, by decide,
    restricted_search_equiv hLast blockE 4 33 4 1 1 (by decide) (by decide) (by decide)
      (by decide) (by decide) (by decide)⟩

/-- Claim C4: a well-formed block (exact-multiple buffer, tx_size ≥ 32,
distinct RecordIDs) without ordering or missing-dependency violations
validates true for every worker count T ≥ 1; in particular the result
agrees between any two partition counts. -/
theorem well_ordered_validates (H : List Nat → List Nat) (block : Block)
    (N tx_size : Nat)
    (hlen : block.length = N * tx_size) (hsz : 32 ≤ tx_size)
    (hdist : distinctIDs H block tx_size N)
    (hwo : wellOrdered H block tx_size N) :
    (∀ T, 1 ≤ T → run_pipeline H block tx_size T = true)
    ∧ ∀ T1 T2, 1 ≤ T1 → 1 ≤ T2 →
        run_pipeline H block tx_size T1 = run_pipeline H block tx_size T2 := by
  have hsz0 : 0 < tx_size := by omega
  have hN : block.length / tx_size = N := by
    rw [hlen]
    exact Nat.mul_div_cancel N hsz0
  have hmain : ∀ T, 1 ≤ T → run_pipeline H block tx_size T = true := by
    intro T hT
    unfold run_pipeline
    rw [run_schedule_eq H block tx_size T _ _ (List.Perm.refl _), hN]
    rw [aggregate_results_eq_all, List.all_eq_true]
    intro b hb
    obtain ⟨t, hmem, rfl⟩ := List.mem_map.mp hb
    rw [List.mem_range] at hmem
    show validator_outcome (all_ptables H block tx_size T N) t block tx_size
      (bound_of (setup_bounds T N) t).1 (bound_of (setup_bounds T N) t).2 = true
    rw [bound_of_setup hmem]
    have hlh : t * N / T ≤ (t + 1) * N / T := low_mono (by omega)
    show validator_outcome (all_ptables H block tx_size T N) t block tx_size
      (t * N / T) ((t + 1) * N / T) = true
    rw [validator_outcome_eq_true_iff _ _ _ _ _ _ hlh]
    intro n hn1 hn2
    have hnN : n < N := Nat.lt_of_lt_of_le hn2 (high_le_total hT hmem)
    rw [check_pos_unfold]
    by_cases hs : slice block (n * tx_size) (n * tx_size + 32) = sentinel
    · rw [if_pos hs]
    · rw [if_neg hs]
      rcases hwo n hnN with hsent | ⟨p, hpn, hptx⟩
      · exact absurd hsent hs
      · have hpN : p < N := by omega
        obtain ⟨j, hjT, hj1, hj2⟩ := bounds_cover hT hpN
        have hjt : j ≤ t := by
          by_contra hc
          have hmono : (t + 1) * N / T ≤ j * N / T := low_mono (by omega)
          omega
        have h1 : search_prior (all_ptables H block tx_size T N) t
            (slice block (n * tx_size) (n * tx_size + 32)) = some p := by
          rw [← hptx]
          exact search_prior_finds hdist hT hmem hjt hj1 hj2
        rw [h1]
        show decide (p ≤ n) = true
        exact decide_eq_true hpn
  exact ⟨hmain, fun T1 T2 h1 h2 => by rw [hmain T1 h1, hmain T2 h2]⟩

theorem well_ordered_validates_witness :
    blockE.length = 4 * 33 ∧ distinctIDs hLast blockE 33 4
    ∧ wellOrdered hLast blockE 33 4
    ∧ run_pipeline hLast blockE 33 1 = true
    ∧ run_pipeline hLast blockE 33 2 = true
    ∧ run_pipeline hLast blockE 33 4 = true :=
  ⟨by decide, by decide, by decide,
    (well_ordered_validates hLast blockE 4 33 (by decide) (by decide) (by decide)
      (by decide)).1 1 (by decide),
    (well_ordered_validates hLast blockE 4 33 (by decide) (by decide) (by decide)
      (by decide)).1 2 (by decide),
    (well_ordered_validates hLast blockE 4 33 (by decide) (by decide) (by decide)
      (by decide)).1 4 (by decide)⟩

/-- Claim C5 counterexample: in blockC5 the single record's non-sentinel
reference resolves to its own position (pos = n = 0, the reference
equals its own RecordID), yet validation passes and the pipeline
returns true — no ordering-violation failure is reported, contrary to
the claim that pos ≥ n (including pos = n) is reported as a failure. -/
theorem self_reference_passes :
    slice blockC5 0 32 ≠ sentinel
    ∧ slice blockC5 0 32 = txid hLast 0 blockC5 33
    ∧ search_prior (all_ptables hLast blockC5 33 1 1) 0 (slice blockC5 0 32) = some 0
    ∧ run_pipeline hLast blockC5 33 1 = true := by decide

/-- Claim C5 (amended): only a strictly later resolution is an ordering
violation: when a record's non-sentinel reference resolves to pos > n,
the partition's outcome is false; a resolution at pos = n passes, since
the source tests pos > n. The failure is local: it is the outcome of
that partition's own validator only. -/
theorem ordering_violation_fails (H : List Nat → List Nat) (block : Block)
    (tx_size T N t n pos : Nat)
    (ht : t < T)
    (hn1 : (bound_of (setup_bounds T N) t).1 ≤ n)
    (hn2 : n < (bound_of (setup_bounds T N) t).2)
    (hns : slice block (n * tx_size) (n * tx_size + 32) ≠ sentinel)
    (hfound : search_prior (all_ptables H block tx_size T N) t
        (slice block (n * tx_size) (n * tx_size + 32)) = some pos)
    (hpos : n < pos) :
    validator_outcome (all_ptables H block tx_size T N) t block tx_size
      (bound_of (setup_bounds T N) t).1 (bound_of (setup_bounds T N) t).2 = false := by
  rw [bound_of_setup ht] at hn1 hn2 ⊢
  have hn1a : t * N / T ≤ n := hn1
  have hn2a : n < (t + 1) * N / T := hn2
  have hlh : t * N / T ≤ (t + 1) * N / T := low_mono (by omega)
  show validator_outcome (all_ptables H block tx_size T N) t block tx_size
    (t * N / T) ((t + 1) * N / T) = false
  cases hout : validator_outcome (all_ptables H block tx_size T N) t block tx_size
      (t * N / T) ((t + 1) * N / T) with
  | false => rfl
  | true =>
    have hchk := (validator_outcome_eq_true_iff _ _ _ _ _ _ hlh).mp hout n hn1a hn2a
    rw [check_pos_unfold, if_neg hns, hfound] at hchk
    have hchk2 : decide (pos ≤ n) = true := hchk
    have := of_decide_eq_true hchk2
    omega

theorem ordering_violation_fails_witness :
    slice blockV 0 32 ≠ sentinel
    ∧ search_prior (all_ptables hLast blockV 33 1 2) 0 (slice blockV 0 32) = some 1
    ∧ validator_outcome (all_ptables hLast blockV 33 1 2) 0 blockV 33
        (bound_of (setup_bounds 1 2) 0).1 (bound_of (setup_bounds 1 2) 0).2 = false :=
  ⟨by decide, by decide,
    ordering_violation_fails hLast blockV 33 1 2 0 0 1 (by decide) (by decide)
      (by decide) (by decide) (by decide) (by decide)⟩

/-- Claim C7: for a block with pairwise-distinct RecordIDs, the
RecordID of every position p is, after the build phase, a key of
exactly one partition's PositionIndex — the partition whose bound
contains p — where it maps to p; every other partition's index lacks
it. -/
theorem ptable_round_trip (H : List Nat → List Nat) (block : Block)
    (tx_size N T p : Nat)
    (hdist : distinctIDs H block tx_size N) (hT : 1 ≤ T) (hp : p < N) :
    ∃ t, t < T
      ∧ (bound_of (setup_bounds T N) t).1 ≤ p ∧ p < (bound_of (setup_bounds T N) t).2
      ∧ ptGet ((all_ptables H block tx_size T N).getD t []) (txid H p block tx_size)
          = some p
      ∧ ∀ s, s < T → s ≠ t →
          ptGet ((all_ptables H block tx_size T N).getD s []) (txid H p block tx_size)
            = none := by
  obtain ⟨t, htT, h1, h2⟩ := bounds_cover hT hp
  refine ⟨t, htT, ?_, ?_, ?_, ?_⟩
  · rw [bound_of_setup htT]; exact h1
  · rw [bound_of_setup htT]; exact h2
  · rw [all_ptables_getD htT]
    apply hasher_ptGet_some_of h1 h2 rfl
    intro q hq1 hq2 hq
    have hqN : q < N := Nat.lt_of_lt_of_le hq2 (high_le_total hT htT)
    exact hdist q hqN p hp hq
  · intro s hsT hst
    rw [all_ptables_getD hsT, hasher_ptGet_none]
    intro q hq1 hq2 hq
    have hqN : q < N := Nat.lt_of_lt_of_le hq2 (high_le_total hT hsT)
    have hqp : q = p := hdist q hqN p hp hq
    subst hqp
    rcases Nat.lt_or_ge s t with hlt | hge
    · have hmono : (s + 1) * N / T ≤ t * N / T := low_mono (by omega)
      omega
    · have hlt2 : t < s := by omega
      have hmono : (t + 1) * N / T ≤ s * N / T := low_mono (by omega)
      omega

theorem ptable_round_trip_witness :
    distinctIDs hLast blockE 33 4
    ∧ ∃ t, t < 2
      ∧ (bound_of (setup_bounds 2 4) t).1 ≤ 3 ∧ 3 < (bound_of (setup_bounds 2 4) t).2
      ∧ ptGet ((all_ptables hLast blockE 33 2 4).getD t []) (txid hLast 3 blockE 33)
          = some 3
      ∧ ∀ s, s < 2 → s ≠ t →
          ptGet ((all_ptables hLast blockE 33 2 4).getD s []) (txid hLast 3 blockE 33)
            = none :=
  ⟨by decide, ptable_round_trip hLast blockE 33 4 2 3 (by decide) (by decide) (by decide)⟩

end ParallelTTOR
